import Mathlib

/-!
Verification of the IS211 Assignment 3 web-log analyzer (`assignment3.py`).

The program is embedded shallowly: each Python function becomes a Lean
definition over `String` / `List Char`, with the relevant library behaviour
(CPython `str.splitlines`, `str.strip`, the `csv` reader's default dialect,
`re` search with `IGNORECASE`, `datetime.strptime`, `collections.Counter`,
stable `sorted`) spelled out explicitly.  Unicode case folding and non-ASCII
decimal digits accepted by `re`'s `\d` are outside the modelled character
ranges (the log data is ASCII); everything else follows the CPython
semantics of the constructs the source uses.

Floating-point percentages are modelled with exact rationals `ℚ`.
-/

set_option autoImplicit false

namespace Assignment3

/-! ### Python character-level helpers -/

/-- The upper-to-lower table of the ASCII letters. -/
def lowerPairs : List (Char × Char) :=
  [('A', 'a'), ('B', 'b'), ('C', 'c'), ('D', 'd'), ('E', 'e'), ('F', 'f'),
   ('G', 'g'), ('H', 'h'), ('I', 'i'), ('J', 'j'), ('K', 'k'), ('L', 'l'),
   ('M', 'm'), ('N', 'n'), ('O', 'o'), ('P', 'p'), ('Q', 'q'), ('R', 'r'),
   ('S', 's'), ('T', 't'), ('U', 'u'), ('V', 'v'), ('W', 'w'), ('X', 'x'),
   ('Y', 'y'), ('Z', 'z')]

/-- First-hit association-list lookup. -/
def lookupChar : List (Char × Char) → Char → Option Char
  | [], _ => none
  | (a, b) :: rest, c => if c = a then some b else lookupChar rest c

/-- ASCII lower-casing, as applied by `re.IGNORECASE` matching on the
ASCII letters appearing in the program's patterns; every character that
is not an ASCII capital letter is fixed. -/
def lowerAscii (c : Char) : Char :=
  (lookupChar lowerPairs c).getD c

/-- ASCII decimal digit, the `\d` class restricted to ASCII. -/
def isAsciiDigit (c : Char) : Bool :=
  '0' ≤ c && c ≤ '9'

/-- The line-boundary characters of CPython `str.splitlines`:
`\n \r \v \f \x1c \x1d \x1e \x85    ` (plus the pair `\r\n`,
handled in `splitlinesGo`). -/
def isLineBreakChar (c : Char) : Bool :=
  decide (c ∈ ['\n', '\r', '\x0b', '\x0c', '\x1c', '\x1d', '\x1e', '\x85',
    '\u2028', '\u2029'])

/-- The characters for which Python `str.isspace()` holds, which is also
the match set of `re`'s `\s` on `str` patterns. -/
def pySpaceChars : List Char :=
  ['\t', '\n', '\x0b', '\x0c', '\r', '\x1c', '\x1d', '\x1e',
    '\x1f', ' ', '\x85', '\xa0', '\u1680', '\u2000', '\u2001', '\u2002',
    '\u2003', '\u2004', '\u2005', '\u2006', '\u2007', '\u2008', '\u2009',
    '\u200a', '\u2028', '\u2029', '\u202f', '\u205f', '\u3000']

/-- The Python whitespace class, used both by `str.strip()` and by the
`\s+` that a literal space in a `strptime` format compiles to. -/
def pyIsSpace (c : Char) : Bool :=
  decide (c ∈ pySpaceChars)

/-- `str.splitlines`: accumulate the current line (in reverse) and cut at
every boundary character, treating `\r\n` as a single boundary; a trailing
boundary does not open an empty final line. -/
def splitlinesGo (cur : List Char) : List Char → List (List Char)
  | [] => if cur = [] then [] else [cur.reverse]
  | '\r' :: '\n' :: rest => cur.reverse :: splitlinesGo [] rest
  | c :: rest =>
    if isLineBreakChar c then cur.reverse :: splitlinesGo [] rest
    else splitlinesGo (c :: cur) rest

/-- `data.splitlines()` from `process_csv`. -/
def pySplitlines (l : List Char) : List (List Char) :=
  splitlinesGo [] l

/-- `str.strip()` with no argument: remove leading and trailing Python
whitespace. -/
def pyStrip (l : List Char) : List Char :=
  ((l.dropWhile pyIsSpace).reverse.dropWhile pyIsSpace).reverse

/-! ### The `csv.reader` state machine (default dialect)

`csv.reader(data.splitlines())` parses with delimiter `,`, quote `"`,
`doublequote=True`, no escape char, `skipinitialspace=False`,
`strict=False`.  A quote is special only at the start of a field; `""`
inside a quoted field denotes one `"`; after a closing quote any further
characters are appended to the field (non-strict mode); a quoted field
left open at the end of a line continues into the following line — the
lines carry no newline characters (they come from `splitlines`), so
nothing is inserted at the seam; a quoted field left open at end of input
still yields its row.  An empty line yields the empty row `[]`.
All of this matches observed CPython behaviour. -/

inductive CsvState where
  | startRecord
  | startField
  | inField
  | inQuoted
  | quoteInQuoted
deriving DecidableEq, Repr

/-- Run the csv state machine over the characters of one line.
`fields` are the completed fields of the current row, `field` the field
being built. -/
def csvLineGo (fields : List (List Char)) (field : List Char) (st : CsvState) :
    List Char → List (List Char) × List Char × CsvState
  | [] => (fields, field, st)
  | c :: rest =>
    match st with
    | .startRecord =>
      if c = '"' then csvLineGo fields field .inQuoted rest
      else if c = ',' then csvLineGo (fields ++ [field]) [] .startField rest
      else csvLineGo fields (field ++ [c]) .inField rest
    | .startField =>
      if c = '"' then csvLineGo fields field .inQuoted rest
      else if c = ',' then csvLineGo (fields ++ [field]) [] .startField rest
      else csvLineGo fields (field ++ [c]) .inField rest
    | .inField =>
      if c = ',' then csvLineGo (fields ++ [field]) [] .startField rest
      else csvLineGo fields (field ++ [c]) .inField rest
    | .inQuoted =>
      if c = '"' then csvLineGo fields field .quoteInQuoted rest
      else csvLineGo fields (field ++ [c]) .inQuoted rest
    | .quoteInQuoted =>
      if c = '"' then csvLineGo fields (field ++ ['"']) .inQuoted rest
      else if c = ',' then csvLineGo (fields ++ [field]) [] .startField rest
      else csvLineGo fields (field ++ [c]) .inField rest

/-- Read the csv rows of a line list.  The first parameter carries an open
row whose last field's quote was not closed on an earlier line. -/
def csvRowsGo : Option (List (List Char) × List Char) → List (List Char) →
    List (List (List Char))
  | none, [] => []
  | some (fields, field), [] => [fields ++ [field]]
  | carry, line :: rest =>
    let start : List (List Char) × List Char × CsvState :=
      match carry with
      | none => ([], [], .startRecord)
      | some (fields, field) => (fields, field, .inQuoted)
    match csvLineGo start.1 start.2.1 start.2.2 line with
    | (fields, field, .inQuoted) => csvRowsGo (some (fields, field)) rest
    | (fields, field, st) =>
      (if st = .startRecord then [] else fields ++ [field]) :: csvRowsGo none rest

/-- All rows produced by `csv.reader` on the given lines. -/
def csvRows (lines : List (List Char)) : List (List (List Char)) :=
  csvRowsGo none lines

/-! ### `process_csv` -/

/-- One parsed log line: the dictionary
`{'path': row[0].strip(), 'datetime': row[1].strip(), 'browser': row[2].strip(),
  'status': row[3].strip(), 'size': row[4].strip()}`. -/
structure LogRecord where
  path : String
  datetime : String
  browser : String
  status : String
  size : String
deriving DecidableEq, Repr

/-- Build the record from the first five fields of a row (the caller
guarantees `5 ≤ row.length`, so the `[]` defaults are never used). -/
def mkLogRecord (row : List (List Char)) : LogRecord where
  path := ⟨pyStrip (row.getD 0 [])⟩
  datetime := ⟨pyStrip (row.getD 1 [])⟩
  browser := ⟨pyStrip (row.getD 2 [])⟩
  status := ⟨pyStrip (row.getD 3 [])⟩
  size := ⟨pyStrip (row.getD 4 [])⟩

/-- The `for row in csv_reader: if len(row) >= 5: processed_data.append(...)`
loop, with its accumulator. -/
def processCsvLoop (acc : List LogRecord) : List (List (List Char)) → List LogRecord
  | [] => acc
  | row :: rest =>
    if 5 ≤ row.length then processCsvLoop (acc ++ [mkLogRecord row]) rest
    else processCsvLoop acc rest

/-- `process_csv(data)`. -/
def process_csv (data : String) : List LogRecord :=
  processCsvLoop [] (csvRows (pySplitlines data.data))

/-! ### `find_image_requests`

The pattern is `re.compile(r'.*\.(jpg|gif|png)$', re.IGNORECASE)` used with
`.match` (anchored at the start).  `.` does not match `\n`; `$` matches at
the end of the string or just before a terminating `\n`; the extension
letters match case-insensitively. -/

/-- After a literal `.`, the regex requires one of the extensions followed
by `$`: the remainder must be the extension itself, optionally followed by
one final newline. -/
def extOk (rest : List Char) : Bool :=
  [['j', 'p', 'g'], ['g', 'i', 'f'], ['p', 'n', 'g']].any fun e =>
    rest.map lowerAscii = e || rest.map lowerAscii = e ++ ['\n']

/-- `.*` may consume any characters except `\n` before the literal dot, so
a match exists iff some position reachable without crossing `\n` carries
`.` followed by an `extOk` remainder. -/
def imageSearch : List Char → Bool
  | [] => false
  | c :: rest => (c = '.' && extOk rest) || (c ≠ '\n' && imageSearch rest)

/-- `image_regex.match(entry['path'])` as a Boolean. -/
def imageMatch (s : String) : Bool :=
  imageSearch s.data

/-- The image-counting loop of `find_image_requests`. -/
def imageCountLoop (acc : Nat) : List LogRecord → Nat
  | [] => acc
  | e :: rest =>
    if imageMatch e.path then imageCountLoop (acc + 1) rest
    else imageCountLoop acc rest

/-- `find_image_requests(data)`: the count and the percentage
`(image_count / total_requests) * 100` (Python floats modelled as exact
rationals); `0` when there are no records. -/
def find_image_requests (data : List LogRecord) : Nat × ℚ :=
  let image_count := imageCountLoop 0 data
  let total_requests := data.length
  if 0 < total_requests then
    (image_count, ((image_count : ℚ) / (total_requests : ℚ)) * 100)
  else
    (image_count, 0)

/-! ### Browser classification (`find_most_popular_browser`) -/

/-- Consume `tok` (given in lower case) case-insensitively from the front
of `l`, returning the remainder. -/
def dropTok : List Char → List Char → Option (List Char)
  | [], l => some l
  | _ :: _, [] => none
  | t :: ts, c :: cs => if lowerAscii c = t then dropTok ts cs else none

/-- Whether the list starts with at least one digit (the `\d+` tail of the
browser patterns). -/
def digitAfter : List Char → Bool
  | [] => false
  | c :: _ => isAsciiDigit c

/-- `re.search` for the pattern `tok` followed by `\d+`: some position of
the string carries the token (case-insensitively) followed by a digit. -/
def searchTokenDigit (tok : List Char) : List Char → Bool
  | [] => false
  | c :: rest =>
    (match dropTok tok (c :: rest) with
     | some r => digitAfter r
     | none => false) || searchTokenDigit tok rest

/-- `firefox_regex.search`, pattern `Firefox/\d+` with `IGNORECASE`. -/
def firefoxMatch (ua : String) : Bool :=
  searchTokenDigit ['f', 'i', 'r', 'e', 'f', 'o', 'x', '/'] ua.data

/-- `chrome_regex.search`, pattern `Chrome/\d+` with `IGNORECASE`. -/
def chromeMatch (ua : String) : Bool :=
  searchTokenDigit ['c', 'h', 'r', 'o', 'm', 'e', '/'] ua.data

/-- `ie_regex.search`, pattern `MSIE \d+|Trident/\d+` with `IGNORECASE`. -/
def ieMatch (ua : String) : Bool :=
  searchTokenDigit ['m', 's', 'i', 'e', ' '] ua.data ||
  searchTokenDigit ['t', 'r', 'i', 'd', 'e', 'n', 't', '/'] ua.data

/-- `safari_regex.search`, pattern `Safari/\d+` with `IGNORECASE`. -/
def safariMatch (ua : String) : Bool :=
  searchTokenDigit ['s', 'a', 'f', 'a', 'r', 'i', '/'] ua.data

/-- The `if/elif/else` chain of `find_most_popular_browser`, factored as
the bucket label each record's user agent is tallied under. -/
def classifyAgent (ua : String) : String :=
  if firefoxMatch ua then "Firefox"
  else if chromeMatch ua then "Chrome"
  else if ieMatch ua then "Internet Explorer"
  else if safariMatch ua && !chromeMatch ua then "Safari"
  else "Other"

/-! ### `collections.Counter` as an insertion-ordered association list -/

/-- `counter[k] += 1`: dictionaries preserve insertion order, so an
existing key keeps its position and a new key is appended at the end. -/
def counterAdd {α : Type} [DecidableEq α] : List (α × Nat) → α → List (α × Nat)
  | [], k => [(k, 1)]
  | (k', n) :: rest, k =>
    if k' = k then (k', n + 1) :: rest else (k', n) :: counterAdd rest k

/-- `counter[k]` (0 for an absent key). -/
def counterGet {α : Type} [DecidableEq α] : List (α × Nat) → α → Nat
  | [], _ => 0
  | (k', n) :: rest, k => if k' = k then n else counterGet rest k

/-- `browser_counts` after the tally loop. -/
def browserCounts (data : List LogRecord) : List (String × Nat) :=
  data.foldl (fun c e => counterAdd c (classifyAgent e.browser)) []

/-- `Counter.most_common(1)`: the first entry holding the maximum count
(`heapq.nlargest` is equivalent to a stable descending sort, so on ties the
earliest-inserted key wins). -/
def firstMax {α : Type} : List (α × Nat) → Option (α × Nat)
  | [] => none
  | p :: rest =>
    match firstMax rest with
    | none => some p
    | some q => if p.2 < q.2 then some q else some p

/-- `find_most_popular_browser(data)`. -/
def find_most_popular_browser (data : List LogRecord) : String × Nat :=
  match firstMax (browserCounts data) with
  | some p => p
  | none => ("None", 0)

/-! ### `analyze_hits_by_hour` -/

/-- Whether `y` is a leap year (the Gregorian rule used by `datetime`). -/
def isLeapYear (y : Nat) : Bool :=
  y % 4 = 0 && (y % 100 ≠ 0 || y % 400 = 0)

/-- Days in month `m` of year `y`, as validated by the `datetime`
constructor. -/
def daysInMonth (m y : Nat) : Nat :=
  if m = 2 then (if isLeapYear y then 29 else 28)
  else if m = 4 || m = 6 || m = 9 || m = 11 then 30
  else 31

/-- Numeric value of a digit run. -/
def digitsVal (l : List Char) : Nat :=
  l.foldl (fun a c => a * 10 + (c.toNat - 48)) 0

/-- Consume the maximal ASCII-digit run, requiring its length to lie in
`[lenLo, lenHi]`; return its value and the remainder. -/
def numField (lenLo lenHi : Nat) (l : List Char) : Option (Nat × List Char) :=
  if (l.takeWhile isAsciiDigit).length < lenLo ||
      lenHi < (l.takeWhile isAsciiDigit).length then none
  else some (digitsVal (l.takeWhile isAsciiDigit), l.dropWhile isAsciiDigit)

/-- Consume one literal character. -/
def litChar (ch : Char) : List Char → Option (List Char)
  | [] => none
  | c :: r => if c = ch then some r else none

/-- Consume a nonempty whitespace run (the `\s+` a literal space in a
`strptime` format compiles to). -/
def wsRun : List Char → Option (List Char)
  | [] => none
  | c :: r => if pyIsSpace c then some (r.dropWhile pyIsSpace) else none

/-- `datetime.strptime(s, '%m/%d/%Y %H:%M:%S').hour`, `none` on
`ValueError`.  CPython compiles the format to the anchored, fully-consuming
regex `(1[0-2]|0[1-9]|[1-9]) / (3[01]|[1-2]\d|0[1-9]|[1-9]) / \d\d\d\d \s+
(2[0-3]|[0-1]\d|\d) : ([0-5]\d|\d) : (6[0-1]|[0-5]\d|\d)` and then builds a
`datetime`, which further validates the day against the calendar, requires
`1 <= year` and rejects the leap seconds 60/61.  Every numeric group sits
before a non-digit literal (or the end), so a group matches exactly the
maximal digit run at its position, constrained to length 1–2 (4 for the
year) and to the stated value range; the net effect embedded here. -/
def parseTimestampHour (s : String) : Option Nat :=
  (numField 1 2 s.data).bind fun mr =>
  if mr.1 < 1 || 12 < mr.1 then none else
  (litChar '/' mr.2).bind fun r2 =>
  (numField 1 2 r2).bind fun dr =>
  if dr.1 < 1 || 31 < dr.1 then none else
  (litChar '/' dr.2).bind fun r4 =>
  (numField 4 4 r4).bind fun yr =>
  if yr.1 < 1 then none else
  (wsRun yr.2).bind fun r6 =>
  (numField 1 2 r6).bind fun hr =>
  if 23 < hr.1 then none else
  (litChar ':' hr.2).bind fun r8 =>
  (numField 1 2 r8).bind fun nr =>
  if 59 < nr.1 then none else
  (litChar ':' nr.2).bind fun r10 =>
  (numField 1 2 r10).bind fun sr =>
  if 59 < sr.1 then none else
  if sr.2 ≠ [] then none else
  if daysInMonth mr.1 yr.1 < dr.1 then none else
  some hr.1

/-- The hour-tally loop: `try: ... hour_counts[hour] += 1 except ValueError:
continue`. -/
def hourCounts (data : List LogRecord) : List (Nat × Nat) :=
  data.foldl
    (fun c e =>
      match parseTimestampHour e.datetime with
      | some h => counterAdd c h
      | none => c)
    []

/-- Stable insertion keeping strictly-greater counts ahead: the element
goes in front of the first entry whose count is `≤` its own. -/
def insertDesc (x : Nat × Nat) : List (Nat × Nat) → List (Nat × Nat)
  | [] => [x]
  | y :: ys => if y.2 ≤ x.2 then x :: y :: ys else y :: insertDesc x ys

/-- `sorted(items, key=lambda x: x[1], reverse=True)`: Python's sort is
stable, and `reverse=True` still keeps equal elements in their original
order; extensionally this is stable insertion sort by descending count. -/
def sortDesc : List (Nat × Nat) → List (Nat × Nat)
  | [] => []
  | x :: xs => insertDesc x (sortDesc xs)

/-- `analyze_hits_by_hour(data)`. -/
def analyze_hits_by_hour (data : List LogRecord) : List (Nat × Nat) :=
  sortDesc (hourCounts data)

/-! ### Specification-side definitions

These definitions follow the wording of the specification, to be compared
with the definitions embedded from the source. -/

/-- The spec's simplification of the classifier: a plain else-if chain in
precedence order 1→2→3→4→5 with the Chrome-exclusion check inside the
Safari rule removed. -/
def classifyAgentFlat (ua : String) : String :=
  if firefoxMatch ua then "Firefox"
  else if chromeMatch ua then "Chrome"
  else if ieMatch ua then "Internet Explorer"
  else if safariMatch ua then "Safari"
  else "Other"

/-- The spec's image criterion: the path, matched case-insensitively
against the entire string, ends in `.jpg`, `.gif`, or `.png`. -/
def endsWithImageExt (s : String) : Bool :=
  [['.', 'j', 'p', 'g'], ['.', 'g', 'i', 'f'], ['.', 'p', 'n', 'g']].any fun e =>
    e.isSuffixOf (s.data.map lowerAscii)

/-- The distinct keys of a scan, in first-seen order. -/
def firstSeenFold {α : Type} [DecidableEq α] (keys : List α) : List α :=
  keys.foldl (fun acc k => if k ∈ acc then acc else acc ++ [k]) []

/-- All characters are ASCII digits. -/
def digitsOnly (l : List Char) : Prop :=
  ∀ c ∈ l, isAsciiDigit c = true

/-- The timestamp format accepted by the hourly aggregator, written as a
string decomposition: one- or two-digit month (1–12) `/` one- or two-digit
day (validated against the calendar) `/` four-digit year (at least 1),
a nonempty whitespace run, then `hour:minute:second` with one- or
two-digit components (hour 0–23, minute 0–59, second 0–59); nothing may
precede or follow.  `h` is the extracted hour. -/
def specTimestamp (s : String) (h : Nat) : Prop :=
  ∃ mo da ye ws ho mi se : List Char,
    s.data = mo ++ '/' :: (da ++ '/' :: (ye ++ ws ++ (ho ++ ':' :: (mi ++ ':' :: se)))) ∧
    (mo ≠ [] ∧ mo.length ≤ 2 ∧ digitsOnly mo ∧ 1 ≤ digitsVal mo ∧ digitsVal mo ≤ 12) ∧
    (da ≠ [] ∧ da.length ≤ 2 ∧ digitsOnly da ∧ 1 ≤ digitsVal da ∧
      digitsVal da ≤ daysInMonth (digitsVal mo) (digitsVal ye)) ∧
    (ye.length = 4 ∧ digitsOnly ye ∧ 1 ≤ digitsVal ye) ∧
    (ws ≠ [] ∧ ∀ c ∈ ws, pyIsSpace c = true) ∧
    (ho ≠ [] ∧ ho.length ≤ 2 ∧ digitsOnly ho ∧ digitsVal ho ≤ 23) ∧
    (mi ≠ [] ∧ mi.length ≤ 2 ∧ digitsOnly mi ∧ digitsVal mi ≤ 59) ∧
    (se ≠ [] ∧ se.length ≤ 2 ∧ digitsOnly se ∧ digitsVal se ≤ 59) ∧
    digitsVal ho = h

/-! ### Helper lemmas: characters -/

theorem lookupChar_mem {l : List (Char × Char)} {c d : Char}
    (h : lookupChar l c = some d) : (c, d) ∈ l := by
  induction l with
  | nil => simp [lookupChar] at h
  | cons p rest ih =>
    obtain ⟨a, b⟩ := p
    by_cases hc : c = a
    · subst hc
      simp [lookupChar] at h
      simp [h]
    · simp only [lookupChar, if_neg hc] at h
      simp [ih h]

theorem lowerAscii_eq_imp (c d : Char) (h : lowerAscii c = d) :
    c = d ∨ ('a' ≤ d ∧ d ≤ 'z') := by
  unfold lowerAscii at h
  cases hl : lookupChar lowerPairs c with
  | none => left; rw [hl] at h; simpa using h
  | some e =>
    rw [hl] at h
    simp only [Option.getD_some] at h
    subst h
    right
    have hall : ∀ p ∈ lowerPairs, 'a' ≤ p.2 ∧ p.2 ≤ 'z' := by decide
    exact hall (c, e) (lookupChar_mem hl)

theorem lowerAscii_eq_dot {c : Char} (h : lowerAscii c = '.') : c = '.' :=
  (lowerAscii_eq_imp c '.' h).resolve_right (by decide)

theorem lowerAscii_eq_newline {c : Char} (h : lowerAscii c = '\n') : c = '\n' :=
  (lowerAscii_eq_imp c '\n' h).resolve_right (by decide)

theorem pyIsSpace_not_digit {c : Char} (h : pyIsSpace c = true) :
    isAsciiDigit c = false := by
  simp only [pyIsSpace, decide_eq_true_eq] at h
  have hall : ∀ x ∈ pySpaceChars, isAsciiDigit x = false := by decide
  exact hall c h

theorem isAsciiDigit_not_space {c : Char} (h : isAsciiDigit c = true) :
    pyIsSpace c = false := by
  cases hs : pyIsSpace c with
  | false => rfl
  | true => exact absurd h (by simp [pyIsSpace_not_digit hs])

/-! ### Helper lemmas: takeWhile / dropWhile -/

theorem head_dropWhile_false {α : Type} (p : α → Bool) :
    ∀ (l : List α) (c : α), (l.dropWhile p).head? = some c → p c = false := by
  intro l
  induction l with
  | nil => intro c h; simp at h
  | cons x xs ih =>
    intro c h
    rw [List.dropWhile_cons] at h
    by_cases hx : p x = true
    · exact ih c (by simpa [hx] using h)
    · rw [if_neg hx] at h
      simp only [List.head?_cons, Option.some.injEq] at h
      subst h
      exact Bool.eq_false_iff.mpr hx

theorem takeWhile_dropWhile_of_append {α : Type} (p : α → Bool) (a b : List α)
    (ha : ∀ c ∈ a, p c = true) (hb : ∀ c, b.head? = some c → p c = false) :
    (a ++ b).takeWhile p = a ∧ (a ++ b).dropWhile p = b := by
  induction a with
  | nil =>
    cases b with
    | nil => simp
    | cons c l =>
      have hc := hb c (by simp)
      simp [List.takeWhile_cons, List.dropWhile_cons, hc]
  | cons x xs ih =>
    have hx := ha x (by simp)
    have := ih (fun c hc => ha c (by simp [hc]))
    simp [List.takeWhile_cons, List.dropWhile_cons, hx, this.1, this.2]

/-! ### Helper lemmas: the timestamp field combinators -/

theorem numField_eq_some_iff {lo hi v : Nat} {l r : List Char} :
    numField lo hi l = some (v, r) ↔
      ∃ ds, l = ds ++ r ∧ digitsOnly ds ∧ lo ≤ ds.length ∧ ds.length ≤ hi ∧
        digitsVal ds = v ∧ (∀ c, r.head? = some c → isAsciiDigit c = false) := by
  constructor
  · intro h
    unfold numField at h
    split at h
    · exact absurd h (by simp)
    · rename_i hcond
      simp only [Bool.or_eq_true, decide_eq_true_eq, not_or, not_lt] at hcond
      injection h with h'
      injection h' with h1 h2
      refine ⟨l.takeWhile isAsciiDigit, ?_, ?_, hcond.1, hcond.2, h1, ?_⟩
      · rw [← h2, List.takeWhile_append_dropWhile]
      · exact fun c hc => List.mem_takeWhile_imp hc
      · intro c hc
        rw [← h2] at hc
        exact head_dropWhile_false isAsciiDigit l c hc
  · rintro ⟨ds, rfl, hdig, hlo, hhi, rfl, hr⟩
    have hsplit := takeWhile_dropWhile_of_append isAsciiDigit ds r hdig hr
    unfold numField
    rw [hsplit.1, hsplit.2]
    have : (ds.length < lo || hi < ds.length) = false := by
      simp only [Bool.or_eq_false_iff, decide_eq_false_iff_not, not_lt]
      exact ⟨hlo, hhi⟩
    simp [this]

theorem litChar_eq_some_iff {ch : Char} {l r : List Char} :
    litChar ch l = some r ↔ l = ch :: r := by
  cases l with
  | nil => simp [litChar]
  | cons c cs =>
    by_cases hc : c = ch
    · subst hc; simp [litChar]
    · simp [litChar, hc, List.cons.injEq]

theorem wsRun_eq_some_iff {l r : List Char} :
    wsRun l = some r ↔
      ∃ ws, l = ws ++ r ∧ ws ≠ [] ∧ (∀ c ∈ ws, pyIsSpace c = true) ∧
        (∀ c, r.head? = some c → pyIsSpace c = false) := by
  cases l with
  | nil =>
    constructor
    · intro h
      exact absurd h (by simp [wsRun])
    · rintro ⟨ws, hws, hne, -, -⟩
      exact absurd (List.append_eq_nil.mp hws.symm).1 hne
  | cons c cs =>
    by_cases hc : pyIsSpace c = true
    · rw [show wsRun (c :: cs) = some (cs.dropWhile pyIsSpace) from by
        simp [wsRun, hc]]
      simp only [Option.some.injEq]
      constructor
      · rintro rfl
        refine ⟨c :: cs.takeWhile pyIsSpace, ?_, by simp, ?_, ?_⟩
        · simp [List.takeWhile_append_dropWhile]
        · intro d hd
          rcases List.mem_cons.mp hd with rfl | hd
          · exact hc
          · exact List.mem_takeWhile_imp hd
        · exact fun d hd => head_dropWhile_false pyIsSpace cs d hd
      · rintro ⟨ws, hws, hne, hsp, hr⟩
        cases ws with
        | nil => exact absurd rfl hne
        | cons w ws' =>
          have hsplit : c = w ∧ cs = ws' ++ r := by
            simpa only [List.cons_append, List.cons.injEq] using hws
          obtain ⟨rfl, rfl⟩ := hsplit
          have := takeWhile_dropWhile_of_append pyIsSpace ws' r
            (fun d hd => hsp d (by simp [hd])) hr
          rw [this.2]
    · rw [show wsRun (c :: cs) = none from by simp [wsRun, hc]]
      constructor
      · intro h
        exact absurd h (by simp)
      · rintro ⟨ws, hws, hne, hsp, -⟩
        cases ws with
        | nil => exact absurd rfl hne
        | cons w ws' =>
          have hcw : c = w := by
            have h' := hws
            simp only [List.cons_append, List.cons.injEq] at h'
            exact h'.1
          exact absurd (hcw ▸ hsp w (by simp)) hc

/-! ### Helper lemmas: the insertion-ordered counter -/

theorem counterAdd_ne_nil {α : Type} [DecidableEq α] (c : List (α × Nat)) (k : α) :
    counterAdd c k ≠ [] := by
  cases c with
  | nil => simp [counterAdd]
  | cons p rest =>
    obtain ⟨k', n⟩ := p
    by_cases h : k' = k <;> simp [counterAdd, h]

theorem sum_counterAdd {α : Type} [DecidableEq α] (c : List (α × Nat)) (k : α) :
    ((counterAdd c k).map (fun p => p.2)).sum = ((c.map fun p => p.2)).sum + 1 := by
  induction c with
  | nil => simp [counterAdd]
  | cons p rest ih =>
    obtain ⟨k', n⟩ := p
    by_cases h : k' = k
    · simp [counterAdd, h]
      omega
    · simp [counterAdd, h, ih]
      omega

theorem map_fst_counterAdd {α : Type} [DecidableEq α] (c : List (α × Nat)) (k : α) :
    (counterAdd c k).map (fun p => p.1) =
      if k ∈ c.map (fun p => p.1) then c.map (fun p => p.1)
      else c.map (fun p => p.1) ++ [k] := by
  induction c with
  | nil => simp [counterAdd]
  | cons p rest ih =>
    obtain ⟨k', n⟩ := p
    by_cases h : k' = k
    · subst h
      simp [counterAdd]
    · simp only [counterAdd, if_neg h, List.map_cons, ih]
      by_cases hm : k ∈ rest.map (fun p => p.1) <;>
        simp [hm, List.mem_cons, Ne.symm h]

theorem counterGet_counterAdd_self {α : Type} [DecidableEq α]
    (c : List (α × Nat)) (k : α) :
    counterGet (counterAdd c k) k = counterGet c k + 1 := by
  induction c with
  | nil => simp [counterAdd, counterGet]
  | cons p rest ih =>
    obtain ⟨k', n⟩ := p
    by_cases h : k' = k <;> simp [counterAdd, counterGet, h, ih]

theorem counterGet_counterAdd_ne {α : Type} [DecidableEq α]
    (c : List (α × Nat)) (k k' : α) (h : k' ≠ k) :
    counterGet (counterAdd c k) k' = counterGet c k' := by
  induction c with
  | nil => simp [counterAdd, counterGet, Ne.symm h]
  | cons p rest ih =>
    obtain ⟨k₀, n⟩ := p
    by_cases h0 : k₀ = k
    · subst h0
      simp [counterAdd, counterGet, Ne.symm h]
    · simp only [counterAdd, if_neg h0, counterGet, ih]

theorem counterAdd_pos {α : Type} [DecidableEq α] (c : List (α × Nat)) (k : α)
    (h : ∀ p ∈ c, 1 ≤ p.2) : ∀ p ∈ counterAdd c k, 1 ≤ p.2 := by
  induction c with
  | nil =>
    intro p hp
    simp only [counterAdd, List.mem_singleton] at hp
    subst hp
    simp
  | cons q rest ih =>
    obtain ⟨k', n⟩ := q
    intro p hp
    by_cases h0 : k' = k
    · subst h0
      rw [show counterAdd ((k', n) :: rest) k' = (k', n + 1) :: rest from by
        simp [counterAdd]] at hp
      rcases List.mem_cons.mp hp with hp | hp
      · subst hp; simp
      · exact h p (List.mem_cons_of_mem _ hp)
    · rw [show counterAdd ((k', n) :: rest) k = (k', n) :: counterAdd rest k from by
        simp [counterAdd, h0]] at hp
      rcases List.mem_cons.mp hp with hp | hp
      · subst hp; exact h (k', n) (List.mem_cons_self _ _)
      · exact ih (fun q hq => h q (List.mem_cons_of_mem _ hq)) p hp

/-! ### Helper lemmas: tallies over scans -/

theorem tally_ne_nil {α : Type} [DecidableEq α] (keys : List α)
    (c : List (α × Nat)) (hc : c ≠ []) : keys.foldl counterAdd c ≠ [] := by
  induction keys generalizing c with
  | nil => simpa using hc
  | cons k keys ih => exact ih (counterAdd c k) (counterAdd_ne_nil c k)

theorem sum_tally {α : Type} [DecidableEq α] (keys : List α) (c : List (α × Nat)) :
    ((keys.foldl counterAdd c).map (fun p => p.2)).sum =
      ((c.map fun p => p.2)).sum + keys.length := by
  induction keys generalizing c with
  | nil => simp
  | cons k keys ih =>
    simp only [List.foldl_cons, ih (counterAdd c k), sum_counterAdd,
      List.length_cons]
    omega

theorem tally_pos {α : Type} [DecidableEq α] (keys : List α) (c : List (α × Nat))
    (hc : ∀ p ∈ c, 1 ≤ p.2) : ∀ p ∈ keys.foldl counterAdd c, 1 ≤ p.2 := by
  induction keys generalizing c with
  | nil => simpa using hc
  | cons k keys ih => exact ih (counterAdd c k) (counterAdd_pos c k hc)

theorem mem_map_fst_counterAdd {α : Type} [DecidableEq α] (c : List (α × Nat))
    (k k' : α) :
    k' ∈ (counterAdd c k).map (fun p => p.1) ↔
      k' ∈ c.map (fun p => p.1) ∨ k' = k := by
  rw [map_fst_counterAdd]
  by_cases hm : k ∈ c.map (fun p => p.1)
  · rw [if_pos hm]
    constructor
    · exact Or.inl
    · rintro (h | rfl)
      · exact h
      · exact hm
  · rw [if_neg hm]
    simp [List.mem_append]

theorem mem_map_fst_tally {α : Type} [DecidableEq α] (keys : List α)
    (c : List (α × Nat)) (k : α) :
    k ∈ (keys.foldl counterAdd c).map (fun p => p.1) ↔
      k ∈ c.map (fun p => p.1) ∨ k ∈ keys := by
  induction keys generalizing c with
  | nil => simp
  | cons k0 keys ih =>
    simp only [List.foldl_cons, ih (counterAdd c k0), mem_map_fst_counterAdd,
      List.mem_cons]
    tauto

theorem counterGet_tally {α : Type} [DecidableEq α] (keys : List α)
    (c : List (α × Nat)) (k : α) :
    counterGet (keys.foldl counterAdd c) k = counterGet c k + keys.count k := by
  induction keys generalizing c with
  | nil => simp
  | cons k0 keys ih =>
    by_cases h : k0 = k
    · subst h
      simp only [List.foldl_cons, ih (counterAdd c k0),
        counterGet_counterAdd_self, List.count_cons_self]
      omega
    · simp only [List.foldl_cons, ih (counterAdd c k0),
        counterGet_counterAdd_ne c k0 k (Ne.symm h),
        List.count_cons_of_ne (Ne.symm h)]

theorem map_fst_tally_firstSeen {α : Type} [DecidableEq α] (keys : List α)
    (c : List (α × Nat)) :
    (keys.foldl counterAdd c).map (fun p => p.1) =
      keys.foldl (fun acc k => if k ∈ acc then acc else acc ++ [k])
        (c.map (fun p => p.1)) := by
  induction keys generalizing c with
  | nil => simp
  | cons k keys ih =>
    simp only [List.foldl_cons, ih (counterAdd c k), map_fst_counterAdd]

/-! ### Helper lemmas: `most_common(1)` -/

theorem firstMax_eq_none_iff {α : Type} (c : List (α × Nat)) :
    firstMax c = none ↔ c = [] := by
  cases c with
  | nil => simp [firstMax]
  | cons p rest =>
    simp only [firstMax]
    cases firstMax rest with
    | none => simp
    | some q => by_cases h : p.2 < q.2 <;> simp [h]

theorem firstMax_spec {α : Type} (c : List (α × Nat)) (hne : c ≠ []) :
    ∃ k n l1 l2, firstMax c = some (k, n) ∧ c = l1 ++ (k, n) :: l2 ∧
      (∀ p ∈ l1, p.2 < n) ∧ (∀ p ∈ c, p.2 ≤ n) := by
  induction c with
  | nil => exact absurd rfl hne
  | cons p rest ih =>
    obtain ⟨a, m⟩ := p
    cases hr : firstMax rest with
    | none =>
      have hrest : rest = [] := (firstMax_eq_none_iff rest).mp hr
      subst hrest
      refine ⟨a, m, [], [], by simp [firstMax], by simp, by simp, ?_⟩
      intro p hp
      rw [List.mem_singleton.mp hp]
    | some q =>
      have hrne : rest ≠ [] := by
        intro h
        subst h
        simp [firstMax] at hr
      obtain ⟨k, n, l1, l2, hfm, hdecomp, hl1, hall⟩ := ih hrne
      rw [hfm] at hr
      injection hr with hr
      subst hr
      by_cases hlt : m < n
      · refine ⟨k, n, (a, m) :: l1, l2, ?_, by simp [hdecomp], ?_, ?_⟩
        · simp [firstMax, hfm, hlt]
        · intro p hp
          rcases List.mem_cons.mp hp with hp | hp
          · rw [hp]; exact hlt
          · exact hl1 p hp
        · intro p hp
          rcases List.mem_cons.mp hp with hp | hp
          · rw [hp]; exact Nat.le_of_lt hlt
          · exact hall p hp
      · have hle : n ≤ m := Nat.le_of_not_lt hlt
        refine ⟨a, m, [], rest, ?_, by simp, by simp, ?_⟩
        · simp [firstMax, hfm, hlt]
        · intro p hp
          rcases List.mem_cons.mp hp with hp | hp
          · rw [hp]
          · exact Nat.le_trans (hall p hp) hle

/-! ### Helper lemmas: the stable descending sort -/

theorem insertDesc_perm (x : Nat × Nat) (l : List (Nat × Nat)) :
    List.Perm (insertDesc x l) (x :: l) := by
  induction l with
  | nil => exact List.Perm.refl _
  | cons y ys ih =>
    by_cases h : y.2 ≤ x.2
    · rw [show insertDesc x (y :: ys) = x :: y :: ys from by simp [insertDesc, h]]
    · rw [show insertDesc x (y :: ys) = y :: insertDesc x ys from by
        simp [insertDesc, h]]
      exact (ih.cons y).trans (List.Perm.swap x y ys)

theorem sortDesc_perm (l : List (Nat × Nat)) : List.Perm (sortDesc l) l := by
  induction l with
  | nil => exact List.Perm.refl _
  | cons x xs ih => exact (insertDesc_perm x (sortDesc xs)).trans (ih.cons x)

theorem insertDesc_sorted (x : Nat × Nat) (l : List (Nat × Nat))
    (h : List.Pairwise (fun a b => b.2 ≤ a.2) l) :
    List.Pairwise (fun a b => b.2 ≤ a.2) (insertDesc x l) := by
  induction l with
  | nil => simp [insertDesc]
  | cons y ys ih =>
    rcases List.pairwise_cons.mp h with ⟨hy, hys⟩
    by_cases hle : y.2 ≤ x.2
    · rw [show insertDesc x (y :: ys) = x :: y :: ys from by simp [insertDesc, hle]]
      refine List.pairwise_cons.mpr ⟨?_, h⟩
      intro z hz
      rcases List.mem_cons.mp hz with rfl | hz
      · exact hle
      · exact Nat.le_trans (hy z hz) hle
    · rw [show insertDesc x (y :: ys) = y :: insertDesc x ys from by
        simp [insertDesc, hle]]
      refine List.pairwise_cons.mpr ⟨?_, ih hys⟩
      intro z hz
      rcases List.mem_cons.mp ((insertDesc_perm x ys).mem_iff.mp hz) with rfl | hz
      · exact Nat.le_of_lt (Nat.lt_of_not_le hle)
      · exact hy z hz

theorem sortDesc_sorted (l : List (Nat × Nat)) :
    List.Pairwise (fun a b => b.2 ≤ a.2) (sortDesc l) := by
  induction l with
  | nil => simp [sortDesc]
  | cons x xs ih => exact insertDesc_sorted x (sortDesc xs) ih

theorem filter_insertDesc (x : Nat × Nat) (l : List (Nat × Nat)) (c : Nat) :
    (insertDesc x l).filter (fun p => p.2 == c) =
      if x.2 = c then x :: l.filter (fun p => p.2 == c)
      else l.filter (fun p => p.2 == c) := by
  induction l with
  | nil => by_cases h : x.2 = c <;> simp [insertDesc, List.filter_cons, h]
  | cons y ys ih =>
    by_cases hle : y.2 ≤ x.2
    · rw [show insertDesc x (y :: ys) = x :: y :: ys from by simp [insertDesc, hle]]
      by_cases hx : x.2 = c <;> simp [List.filter_cons, hx]
    · rw [show insertDesc x (y :: ys) = y :: insertDesc x ys from by
        simp [insertDesc, hle]]
      by_cases hx : x.2 = c
      · by_cases hy : y.2 = c
        · exact absurd (Nat.le_of_eq (hy.trans hx.symm)) hle
        · simp [List.filter_cons, hx, hy, ih]
      · simp [List.filter_cons, hx, ih]

theorem filter_sortDesc (l : List (Nat × Nat)) (c : Nat) :
    (sortDesc l).filter (fun p => p.2 == c) = l.filter (fun p => p.2 == c) := by
  induction l with
  | nil => rfl
  | cons x xs ih =>
    rw [show sortDesc (x :: xs) = insertDesc x (sortDesc xs) from rfl,
      filter_insertDesc]
    by_cases hx : x.2 = c <;> simp [List.filter_cons, hx, ih]

/-! ### Helper lemmas: the analysis loops -/

theorem processCsvLoop_eq (acc : List LogRecord) (rows : List (List (List Char))) :
    processCsvLoop acc rows =
      acc ++ rows.filterMap fun row =>
        if 5 ≤ row.length then some (mkLogRecord row) else none := by
  induction rows generalizing acc with
  | nil => simp [processCsvLoop]
  | cons row rest ih =>
    by_cases h : 5 ≤ row.length
    · simp [processCsvLoop, h, ih, List.filterMap_cons]
    · simp [processCsvLoop, h, ih, List.filterMap_cons]

theorem imageCountLoop_eq (acc : Nat) (data : List LogRecord) :
    imageCountLoop acc data = acc + data.countP (fun e => imageMatch e.path) := by
  induction data generalizing acc with
  | nil => simp [imageCountLoop]
  | cons e rest ih =>
    cases h : imageMatch e.path with
    | true =>
      simp [imageCountLoop, h, ih, List.countP_cons]
      omega
    | false => simp [imageCountLoop, h, ih, List.countP_cons]

theorem hourFold_eq (data : List LogRecord) (c0 : List (Nat × Nat)) :
    data.foldl
        (fun c e =>
          match parseTimestampHour e.datetime with
          | some h => counterAdd c h
          | none => c) c0 =
      (data.filterMap fun e => parseTimestampHour e.datetime).foldl counterAdd c0 := by
  induction data generalizing c0 with
  | nil => rfl
  | cons e rest ih =>
    cases hp : parseTimestampHour e.datetime with
    | none => simp [List.foldl_cons, List.filterMap_cons, hp, ih]
    | some h => simp [List.foldl_cons, List.filterMap_cons, hp, ih]

theorem hourCounts_eq (data : List LogRecord) :
    hourCounts data =
      (data.filterMap fun e => parseTimestampHour e.datetime).foldl counterAdd [] :=
  hourFold_eq data []

theorem browserCounts_eq (data : List LogRecord) :
    browserCounts data =
      (data.map fun e => classifyAgent e.browser).foldl counterAdd [] := by
  rw [browserCounts, ← List.foldl_map]

theorem find_image_requests_fst (data : List LogRecord) :
    (find_image_requests data).1 = data.countP (fun e => imageMatch e.path) := by
  by_cases h : 0 < data.length <;>
    simp [find_image_requests, h, imageCountLoop_eq]

theorem browserCounts_ne_nil (data : List LogRecord) (hne : data ≠ []) :
    browserCounts data ≠ [] := by
  cases data with
  | nil => exact absurd rfl hne
  | cons e rest =>
    rw [browserCounts_eq]
    simp only [List.map_cons, List.foldl_cons]
    exact tally_ne_nil _ _ (counterAdd_ne_nil [] _)

/-! ## Claim theorems -/

/-- **C1.** For every agent string, classification follows the
first-match-wins precedence: Firefox token, else Chrome token, else
Internet Explorer token, else Safari token without a Chrome token, else
Other; in particular an agent string containing both a Chrome token and a
Safari token is never classified Safari, and is classified Chrome whenever
no Firefox token is present. -/
theorem claim1_agent_precedence (ua : String) :
    (classifyAgent ua = "Firefox" ↔ firefoxMatch ua = true) ∧
    (classifyAgent ua = "Chrome" ↔
      (firefoxMatch ua = false ∧ chromeMatch ua = true)) ∧
    (classifyAgent ua = "Internet Explorer" ↔
      (firefoxMatch ua = false ∧ chromeMatch ua = false ∧ ieMatch ua = true)) ∧
    (classifyAgent ua = "Safari" ↔
      (firefoxMatch ua = false ∧ chromeMatch ua = false ∧ ieMatch ua = false ∧
        safariMatch ua = true)) ∧
    (classifyAgent ua = "Other" ↔
      (firefoxMatch ua = false ∧ chromeMatch ua = false ∧ ieMatch ua = false ∧
        safariMatch ua = false)) ∧
    (chromeMatch ua = true → safariMatch ua = true →
      classifyAgent ua ≠ "Safari") ∧
    (chromeMatch ua = true → safariMatch ua = true → firefoxMatch ua = false →
      classifyAgent ua = "Chrome") := by
  cases hf : firefoxMatch ua <;> cases hc : chromeMatch ua <;>
    cases hi : ieMatch ua <;> cases hs : safariMatch ua <;>
      simp [classifyAgent, hf, hc, hi, hs]

theorem claim1_agent_precedence_witness :
    classifyAgent "Mozilla Chrome/100 Safari/537" = "Chrome" :=
  (claim1_agent_precedence "Mozilla Chrome/100 Safari/537").2.2.2.2.2.2
    (by decide) (by decide) (by decide)

/-- **C9.** The classifier with the redundant Chrome-exclusion check inside
the Safari branch is extensionally equal to the flattened plain else-if
chain with precedence 1→2→3→4→5. -/
theorem claim9_flatten_equiv (ua : String) :
    classifyAgent ua = classifyAgentFlat ua := by
  unfold classifyAgent classifyAgentFlat
  cases hf : firefoxMatch ua <;> cases hc : chromeMatch ua <;>
    cases hi : ieMatch ua <;> cases hs : safariMatch ua <;> simp [hf, hc, hi, hs]

/-- **C7.** The image classifier returns a count bounded by the number of
records and a percentage in `[0, 100]`, equal to `100 * count / total` when
the record list is nonempty and exactly `0` on the empty list. -/
theorem claim7_image_bounds (data : List LogRecord) :
    (find_image_requests data).1 ≤ data.length ∧
    0 ≤ (find_image_requests data).2 ∧
    (find_image_requests data).2 ≤ 100 ∧
    (0 < data.length →
      (find_image_requests data).2 =
        100 * ((find_image_requests data).1 : ℚ) / (data.length : ℚ)) ∧
    (data = [] → (find_image_requests data).2 = 0) := by
  have hfst := find_image_requests_fst data
  have hcle : (find_image_requests data).1 ≤ data.length := by
    rw [hfst]; exact List.countP_le_length _
  by_cases h : 0 < data.length
  · have hsnd : (find_image_requests data).2 =
        (((find_image_requests data).1 : ℚ) / (data.length : ℚ)) * 100 := by
      simp [find_image_requests, h]
    have htpos : (0 : ℚ) < (data.length : ℚ) := by exact_mod_cast h
    have hle1 : ((find_image_requests data).1 : ℚ) / (data.length : ℚ) ≤ 1 := by
      rw [div_le_one htpos]
      exact_mod_cast hcle
    have hge0 : (0 : ℚ) ≤ ((find_image_requests data).1 : ℚ) / (data.length : ℚ) :=
      div_nonneg (by positivity) (le_of_lt htpos)
    refine ⟨hcle, ?_, ?_, ?_, ?_⟩
    · rw [hsnd]; positivity
    · rw [hsnd]
      calc ((find_image_requests data).1 : ℚ) / (data.length : ℚ) * 100
          ≤ 1 * 100 := by
            exact mul_le_mul_of_nonneg_right hle1 (by norm_num)
        _ = 100 := by norm_num
    · intro _
      rw [hsnd]; ring
    · intro he
      rw [he] at h
      simp at h
  · have hlen : data = [] := List.length_eq_zero.mp (by omega)
    subst hlen
    refine ⟨?_, ?_, ?_, ?_, ?_⟩ <;> simp [find_image_requests, imageCountLoop]

theorem claim7_image_bounds_witness :
    (find_image_requests [⟨"a.jpg", "t", "u", "200", "9"⟩]).2 =
      100 * ((find_image_requests [⟨"a.jpg", "t", "u", "200", "9"⟩]).1 : ℚ) /
        (([⟨"a.jpg", "t", "u", "200", "9"⟩] : List LogRecord).length : ℚ) :=
  (claim7_image_bounds [⟨"a.jpg", "t", "u", "200", "9"⟩]).2.2.2.1 (by decide)

/-- **C5 (counterexample).** The claim reads the input line by line: the
line `a,b,c,d,e` has five fields, so it should yield exactly one record.
But when the preceding line opens a quote that never closes, the csv
reader merges the lines into a single one-field row and the five-field
line yields no record at all. -/
theorem claim5_counterexample :
    process_csv "\"x\na,b,c,d,e" = [] ∧
    (csvRows [['a', ',', 'b', ',', 'c', ',', 'd', ',', 'e']]).map List.length =
      [5] := by
  constructor <;> decide

/-- **C5 (amended).** The parser is a total function of the input text: the
text is split into lines and read as csv rows (a quoted field left open at
the end of a line continues into the following lines); each row with at
least five fields yields exactly one record made of its first five fields,
each trimmed (`mkLogRecord`); rows with fewer fields are skipped; rows are
kept in input order; empty input yields the empty record list. -/
theorem claim5_parser_rows (data : String) :
    process_csv data =
      (csvRows (pySplitlines data.data)).filterMap
        (fun row => if 5 ≤ row.length then some (mkLogRecord row) else none) ∧
    (data = "" → process_csv data = []) := by
  constructor
  · rw [process_csv, processCsvLoop_eq]
    simp
  · rintro rfl
    rfl

theorem claim5_parser_rows_witness :
    process_csv "" = [] ∧
    process_csv "a,b,c,d,e" =
      (csvRows (pySplitlines "a,b,c,d,e".data)).filterMap
        (fun row => if 5 ≤ row.length then some (mkLogRecord row) else none) :=
  ⟨(claim5_parser_rows "").2 rfl, (claim5_parser_rows "a,b,c,d,e").1⟩

/-- **C3.** `find_most_popular_browser` returns `("None", 0)` on the empty
record list; the tally's key order is the first-hit order of the buckets;
and on a nonempty list the returned pair is a bucket of the tally holding
the maximum count whose every earlier bucket has a strictly smaller count
(first-insertion tie-break). -/
theorem claim3_most_popular (data : List LogRecord) :
    (data = [] → find_most_popular_browser data = ("None", 0)) ∧
    (browserCounts data).map (fun p => p.1) =
      firstSeenFold (data.map fun e => classifyAgent e.browser) ∧
    (data ≠ [] → ∃ k n l1 l2,
      find_most_popular_browser data = (k, n) ∧
      browserCounts data = l1 ++ (k, n) :: l2 ∧
      (∀ p ∈ l1, p.2 < n) ∧
      (∀ p ∈ browserCounts data, p.2 ≤ n)) := by
  refine ⟨?_, ?_, ?_⟩
  · rintro rfl
    rfl
  · rw [browserCounts_eq, map_fst_tally_firstSeen]
    rfl
  · intro hne
    obtain ⟨k, n, l1, l2, hfm, hdec, hl1, hall⟩ :=
      firstMax_spec (browserCounts data) (browserCounts_ne_nil data hne)
    refine ⟨k, n, l1, l2, ?_, hdec, hl1, hall⟩
    simp [find_most_popular_browser, hfm]

theorem claim3_most_popular_witness :
    find_most_popular_browser [] = ("None", 0) ∧
    ∃ k n l1 l2,
      find_most_popular_browser [⟨"a", "b", "Firefox/3", "200", "1"⟩] = (k, n) ∧
      browserCounts [⟨"a", "b", "Firefox/3", "200", "1"⟩] = l1 ++ (k, n) :: l2 ∧
      (∀ p ∈ l1, p.2 < n) ∧
      (∀ p ∈ browserCounts [⟨"a", "b", "Firefox/3", "200", "1"⟩], p.2 ≤ n) :=
  ⟨(claim3_most_popular []).1 rfl,
   (claim3_most_popular [⟨"a", "b", "Firefox/3", "200", "1"⟩]).2.2 (by simp)⟩

/-- **C10.** Every record feeds exactly one of the five buckets, so the
bucket counts sum to the number of records; on a nonempty list the winning
label is never `"None"` and its count lies between 1 and the number of
records. -/
theorem claim10_partition (data : List LogRecord) :
    ((browserCounts data).map (fun p => p.2)).sum = data.length ∧
    (∀ ua : String, classifyAgent ua ∈
      (["Firefox", "Chrome", "Internet Explorer", "Safari", "Other"] :
        List String)) ∧
    (data ≠ [] →
      (find_most_popular_browser data).1 ≠ "None" ∧
      1 ≤ (find_most_popular_browser data).2 ∧
      (find_most_popular_browser data).2 ≤ data.length) := by
  have hsum : ((browserCounts data).map (fun p => p.2)).sum = data.length := by
    rw [browserCounts_eq, sum_tally]
    simp
  have hlabels : ∀ ua : String, classifyAgent ua ∈
      (["Firefox", "Chrome", "Internet Explorer", "Safari", "Other"] :
        List String) := by
    intro ua
    unfold classifyAgent
    split_ifs <;> simp
  refine ⟨hsum, hlabels, ?_⟩
  intro hne
  obtain ⟨k, n, l1, l2, hfm, hdec, hl1, hall⟩ :=
    firstMax_spec (browserCounts data) (browserCounts_ne_nil data hne)
  have hres : find_most_popular_browser data = (k, n) := by
    simp [find_most_popular_browser, hfm]
  have hmem : (k, n) ∈ browserCounts data := by
    rw [hdec]
    exact List.mem_append_right _ (List.mem_cons_self _ _)
  have hkmem : k ∈ (browserCounts data).map (fun p => p.1) := by
    exact List.mem_map.mpr ⟨(k, n), hmem, rfl⟩
  have hklabel : k ∈ ["Firefox", "Chrome", "Internet Explorer", "Safari",
      "Other"] := by
    rw [browserCounts_eq, mem_map_fst_tally] at hkmem
    rcases hkmem with h0 | h0
    · simp at h0
    · rcases List.mem_map.mp h0 with ⟨e, -, he⟩
      rw [← he]
      exact hlabels e.browser
  have hpos : 1 ≤ n := by
    have := tally_pos (data.map fun e => classifyAgent e.browser) [] (by simp)
    rw [← browserCounts_eq] at this
    exact this (k, n) hmem
  have hlen : n ≤ data.length := by
    rw [← hsum, hdec]
    simp only [List.map_append, List.map_cons, List.sum_append, List.sum_cons]
    omega
  refine ⟨?_, ?_, ?_⟩
  · rw [hres]
    intro hk
    have hk' : k = "None" := hk
    rw [hk'] at hklabel
    simp at hklabel
  · rw [hres]; exact hpos
  · rw [hres]; exact hlen

theorem claim10_partition_witness :
    (find_most_popular_browser [⟨"a", "b", "CustomBot/1.0", "200", "1"⟩]).1 ≠
      "None" :=
  ((claim10_partition [⟨"a", "b", "CustomBot/1.0", "200", "1"⟩]).2.2
    (by simp)).1

/-- **C6.** A record whose timestamp fails to parse is dropped from the
hour tally (the tally over the list with and without it is identical), yet
the image counter and the browser tally both count it exactly like any
other record, the image count by its path, the browser tally in the bucket
of its agent string. -/
theorem claim6_bad_timestamp (pre post : List LogRecord) (r : LogRecord)
    (hbad : parseTimestampHour r.datetime = none) :
    analyze_hits_by_hour (pre ++ r :: post) = analyze_hits_by_hour (pre ++ post) ∧
    (find_image_requests (pre ++ r :: post)).1 =
      (find_image_requests (pre ++ post)).1 +
        (if imageMatch r.path then 1 else 0) ∧
    ∀ k : String,
      counterGet (browserCounts (pre ++ r :: post)) k =
        counterGet (browserCounts (pre ++ post)) k +
          (if classifyAgent r.browser = k then 1 else 0) := by
  refine ⟨?_, ?_, ?_⟩
  · unfold analyze_hits_by_hour
    rw [hourCounts_eq, hourCounts_eq, List.filterMap_append,
      List.filterMap_append, List.filterMap_cons, hbad]
  · rw [find_image_requests_fst, find_image_requests_fst, List.countP_append,
      List.countP_append, List.countP_cons]
    by_cases himg : imageMatch r.path = true
    · simp [himg]
      omega
    · simp [himg]
  · intro k
    rw [browserCounts_eq, browserCounts_eq, counterGet_tally, counterGet_tally,
      List.map_append, List.map_append, List.map_cons, List.count_append,
      List.count_append, List.count_cons]
    by_cases hk : classifyAgent r.browser = k
    · simp [hk, beq_iff_eq]
      omega
    · simp [hk, beq_iff_eq]

theorem claim6_bad_timestamp_witness :
    analyze_hits_by_hour
        [⟨"a.jpg", "notadate", "Firefox/3", "200", "9"⟩,
         ⟨"b", "01/01/2020 10:15:00", "x", "200", "9"⟩] =
      analyze_hits_by_hour [⟨"b", "01/01/2020 10:15:00", "x", "200", "9"⟩] ∧
    (find_image_requests
        [⟨"a.jpg", "notadate", "Firefox/3", "200", "9"⟩,
         ⟨"b", "01/01/2020 10:15:00", "x", "200", "9"⟩]).1 =
      (find_image_requests [⟨"b", "01/01/2020 10:15:00", "x", "200", "9"⟩]).1 +
        (if imageMatch "a.jpg" then 1 else 0) :=
  ⟨(claim6_bad_timestamp []
      [⟨"b", "01/01/2020 10:15:00", "x", "200", "9"⟩]
      ⟨"a.jpg", "notadate", "Firefox/3", "200", "9"⟩ (by decide)).1,
   (claim6_bad_timestamp []
      [⟨"b", "01/01/2020 10:15:00", "x", "200", "9"⟩]
      ⟨"a.jpg", "notadate", "Firefox/3", "200", "9"⟩ (by decide)).2.1⟩

/-- **C4.** The hourly output is sorted by count descending; among equal
counts the order of the underlying tally — whose key order is the
first-seen order of the hours — is preserved (stable sort by count only);
every listed count is at least 1, and an hour appears in the output iff
some record's timestamp parses to that hour (no zero-count entries). -/
theorem claim4_hour_sort (data : List LogRecord) :
    List.Pairwise (fun a b : Nat × Nat => b.2 ≤ a.2) (analyze_hits_by_hour data) ∧
    (∀ c : Nat, (analyze_hits_by_hour data).filter (fun p => p.2 == c) =
      (hourCounts data).filter (fun p => p.2 == c)) ∧
    (hourCounts data).map (fun p => p.1) =
      firstSeenFold (data.filterMap fun e => parseTimestampHour e.datetime) ∧
    (∀ p ∈ analyze_hits_by_hour data, 1 ≤ p.2) ∧
    (∀ h : Nat, (∃ p ∈ analyze_hits_by_hour data, p.1 = h) ↔
      ∃ r ∈ data, parseTimestampHour r.datetime = some h) := by
  refine ⟨sortDesc_sorted _, fun c => filter_sortDesc _ c, ?_, ?_, ?_⟩
  · rw [hourCounts_eq, map_fst_tally_firstSeen]
    rfl
  · intro p hp
    have hp' : p ∈ hourCounts data := (sortDesc_perm _).mem_iff.mp hp
    rw [hourCounts_eq] at hp'
    exact tally_pos _ [] (by simp) p hp'
  · intro h
    constructor
    · rintro ⟨p, hp, rfl⟩
      have hp' : p ∈ hourCounts data := (sortDesc_perm _).mem_iff.mp hp
      have hmem : p.1 ∈ (hourCounts data).map (fun q => q.1) :=
        List.mem_map.mpr ⟨p, hp', rfl⟩
      rw [hourCounts_eq, mem_map_fst_tally] at hmem
      rcases hmem with h0 | h0
      · simp at h0
      · exact List.mem_filterMap.mp h0
    · rintro ⟨r, hr, hpr⟩
      have hh : h ∈ (hourCounts data).map (fun q => q.1) := by
        rw [hourCounts_eq, mem_map_fst_tally]
        exact Or.inr (List.mem_filterMap.mpr ⟨r, hr, hpr⟩)
      rcases List.mem_map.mp hh with ⟨p, hp, hph⟩
      exact ⟨p, (sortDesc_perm _).mem_iff.mpr hp, hph⟩

/-! ### Helper lemmas: no newline ever enters a parsed field -/

theorem splitlinesGo_no_break :
    ∀ (cur l : List Char),
      (∀ c ∈ cur, isLineBreakChar c = false) →
      ∀ ln ∈ splitlinesGo cur l, ∀ c ∈ ln, isLineBreakChar c = false := by
  intro cur l
  induction cur, l using splitlinesGo.induct with
  | case1 =>
    intro _ ln hln
    simp [splitlinesGo] at hln
  | case2 cur hne =>
    intro h ln hln c hc
    rw [show splitlinesGo cur [] = [cur.reverse] from by
      simp [splitlinesGo, hne]] at hln
    rw [List.mem_singleton.mp hln] at hc
    exact h c (List.mem_reverse.mp hc)
  | case3 cur rest ih =>
    intro h ln hln
    rw [show splitlinesGo cur ('\r' :: '\n' :: rest) =
        cur.reverse :: splitlinesGo [] rest from rfl] at hln
    rcases List.mem_cons.mp hln with rfl | hln
    · intro c hc
      exact h c (List.mem_reverse.mp hc)
    · exact ih (by simp) ln hln
  | case4 cur c rest hno hbr ih =>
    intro h ln hln
    rw [show splitlinesGo cur (c :: rest) = cur.reverse :: splitlinesGo [] rest
      from by simp [splitlinesGo, hbr]] at hln
    rcases List.mem_cons.mp hln with rfl | hln
    · intro d hd
      exact h d (List.mem_reverse.mp hd)
    · exact ih (by simp) ln hln
  | case5 cur c rest hno hbr ih =>
    intro h ln hln
    rw [show splitlinesGo cur (c :: rest) = splitlinesGo (c :: cur) rest from by
      simp [splitlinesGo, hbr]] at hln
    refine ih ?_ ln hln
    intro d hd
    rcases List.mem_cons.mp hd with rfl | hd
    · exact Bool.eq_false_iff.mpr hbr
    · exact h d hd

theorem pySplitlines_no_newline (l : List Char) :
    ∀ ln ∈ pySplitlines l, ∀ c ∈ ln, c ≠ '\n' := by
  intro ln hln c hc
  have := splitlinesGo_no_break [] l (by simp) ln hln c hc
  intro hcn
  rw [hcn] at this
  exact absurd this (by decide)

theorem csvLineGo_preserve (P : Char → Prop) (hq : P '"') :
    ∀ (line : List Char) (fields : List (List Char)) (field : List Char)
      (st : CsvState),
      (∀ f ∈ fields, ∀ c ∈ f, P c) → (∀ c ∈ field, P c) →
      (∀ c ∈ line, P c) →
      (∀ f ∈ (csvLineGo fields field st line).1, ∀ c ∈ f, P c) ∧
      (∀ c ∈ (csvLineGo fields field st line).2.1, P c) := by
  intro line
  induction line with
  | nil =>
    intro fields field st hf hfl _
    exact ⟨hf, hfl⟩
  | cons c rest ih =>
    intro fields field st hf hfl hl
    have hc : P c := hl c (by simp)
    have hrest : ∀ x ∈ rest, P x := fun x hx => hl x (by simp [hx])
    have hfield_c : ∀ x ∈ field ++ [c], P x := by
      intro x hx
      rcases List.mem_append.mp hx with hx | hx
      · exact hfl x hx
      · rw [List.mem_singleton.mp hx]; exact hc
    have hfield_q : ∀ x ∈ field ++ ['"'], P x := by
      intro x hx
      rcases List.mem_append.mp hx with hx | hx
      · exact hfl x hx
      · rw [List.mem_singleton.mp hx]; exact hq
    have hfields_push : ∀ f ∈ fields ++ [field], ∀ x ∈ f, P x := by
      intro f hfm
      rcases List.mem_append.mp hfm with hfm | hfm
      · exact hf f hfm
      · rw [List.mem_singleton.mp hfm]; exact hfl
    have hempty : ∀ x ∈ ([] : List Char), P x := by simp
    cases st with
    | startRecord =>
      by_cases h1 : c = '"'
      · rw [show csvLineGo fields field .startRecord (c :: rest) =
          csvLineGo fields field .inQuoted rest from by simp [csvLineGo, h1]]
        exact ih fields field _ hf hfl hrest
      · by_cases h2 : c = ','
        · rw [show csvLineGo fields field .startRecord (c :: rest) =
            csvLineGo (fields ++ [field]) [] .startField rest from by
            simp [csvLineGo, h1, h2]]
          exact ih _ _ _ hfields_push hempty hrest
        · rw [show csvLineGo fields field .startRecord (c :: rest) =
            csvLineGo fields (field ++ [c]) .inField rest from by
            simp [csvLineGo, h1, h2]]
          exact ih _ _ _ hf hfield_c hrest
    | startField =>
      by_cases h1 : c = '"'
      · rw [show csvLineGo fields field .startField (c :: rest) =
          csvLineGo fields field .inQuoted rest from by simp [csvLineGo, h1]]
        exact ih fields field _ hf hfl hrest
      · by_cases h2 : c = ','
        · rw [show csvLineGo fields field .startField (c :: rest) =
            csvLineGo (fields ++ [field]) [] .startField rest from by
            simp [csvLineGo, h1, h2]]
          exact ih _ _ _ hfields_push hempty hrest
        · rw [show csvLineGo fields field .startField (c :: rest) =
            csvLineGo fields (field ++ [c]) .inField rest from by
            simp [csvLineGo, h1, h2]]
          exact ih _ _ _ hf hfield_c hrest
    | inField =>
      by_cases h2 : c = ','
      · rw [show csvLineGo fields field .inField (c :: rest) =
          csvLineGo (fields ++ [field]) [] .startField rest from by
          simp [csvLineGo, h2]]
        exact ih _ _ _ hfields_push hempty hrest
      · rw [show csvLineGo fields field .inField (c :: rest) =
          csvLineGo fields (field ++ [c]) .inField rest from by
          simp [csvLineGo, h2]]
        exact ih _ _ _ hf hfield_c hrest
    | inQuoted =>
      by_cases h1 : c = '"'
      · rw [show csvLineGo fields field .inQuoted (c :: rest) =
          csvLineGo fields field .quoteInQuoted rest from by
          simp [csvLineGo, h1]]
        exact ih fields field _ hf hfl hrest
      · rw [show csvLineGo fields field .inQuoted (c :: rest) =
          csvLineGo fields (field ++ [c]) .inQuoted rest from by
          simp [csvLineGo, h1]]
        exact ih _ _ _ hf hfield_c hrest
    | quoteInQuoted =>
      by_cases h1 : c = '"'
      · rw [show csvLineGo fields field .quoteInQuoted (c :: rest) =
          csvLineGo fields (field ++ ['"']) .inQuoted rest from by
          simp [csvLineGo, h1]]
        exact ih _ _ _ hf hfield_q hrest
      · by_cases h2 : c = ','
        · rw [show csvLineGo fields field .quoteInQuoted (c :: rest) =
            csvLineGo (fields ++ [field]) [] .startField rest from by
            simp [csvLineGo, h1, h2]]
          exact ih _ _ _ hfields_push hempty hrest
        · rw [show csvLineGo fields field .quoteInQuoted (c :: rest) =
            csvLineGo fields (field ++ [c]) .inField rest from by
            simp [csvLineGo, h1, h2]]
          exact ih _ _ _ hf hfield_c hrest

theorem csvRowsGo_cons (carry : Option (List (List Char) × List Char))
    (line : List Char) (rest : List (List Char)) :
    csvRowsGo carry (line :: rest) =
      (match csvLineGo
          (match carry with
           | none => ([], [], CsvState.startRecord)
           | some (fields, field) => (fields, field, CsvState.inQuoted)).1
          (match carry with
           | none => ([], [], CsvState.startRecord)
           | some (fields, field) => (fields, field, CsvState.inQuoted)).2.1
          (match carry with
           | none => ([], [], CsvState.startRecord)
           | some (fields, field) => (fields, field, CsvState.inQuoted)).2.2
          line with
       | (fields, field, CsvState.inQuoted) =>
         csvRowsGo (some (fields, field)) rest
       | (fields, field, st) =>
         (if st = CsvState.startRecord then [] else fields ++ [field]) ::
           csvRowsGo none rest) := by
  cases carry with
  | none => rfl
  | some pr => obtain ⟨fs, fl⟩ := pr; rfl

theorem csvRowsGo_preserve (P : Char → Prop) (hq : P '"') :
    ∀ (lines : List (List Char)) (carry : Option (List (List Char) × List Char)),
      (∀ fs fl, carry = some (fs, fl) →
        (∀ f ∈ fs, ∀ c ∈ f, P c) ∧ (∀ c ∈ fl, P c)) →
      (∀ ln ∈ lines, ∀ c ∈ ln, P c) →
      ∀ row ∈ csvRowsGo carry lines, ∀ f ∈ row, ∀ c ∈ f, P c := by
  intro lines
  induction lines with
  | nil =>
    intro carry hcarry _ row hrow
    cases carry with
    | none => simp [csvRowsGo] at hrow
    | some pr =>
      obtain ⟨fs, fl⟩ := pr
      rw [show csvRowsGo (some (fs, fl)) [] = [fs ++ [fl]] from rfl] at hrow
      rw [List.mem_singleton.mp hrow]
      intro f hfm
      rcases List.mem_append.mp hfm with hfm | hfm
      · exact (hcarry fs fl rfl).1 f hfm
      · rw [List.mem_singleton.mp hfm]
        exact (hcarry fs fl rfl).2
  | cons line rest ih =>
    intro carry hcarry hlines row hrow
    have hline : ∀ c ∈ line, P c := hlines line (by simp)
    have hrest : ∀ ln ∈ rest, ∀ c ∈ ln, P c :=
      fun ln hln => hlines ln (by simp [hln])
    have hnone : ∀ fs fl, (none : Option (List (List Char) × List Char)) =
        some (fs, fl) → (∀ f ∈ fs, ∀ c ∈ f, P c) ∧ (∀ c ∈ fl, P c) := by
      intro fs fl h
      exact absurd h (by simp)
    obtain ⟨f0, fl0, st0, hstart, hf0, hfl0⟩ :
        ∃ f0 fl0 st0,
          (match carry with
           | none => ([], [], CsvState.startRecord)
           | some (fields, field) => (fields, field, CsvState.inQuoted)) =
            (f0, fl0, st0) ∧
          (∀ f ∈ f0, ∀ c ∈ f, P c) ∧ (∀ c ∈ fl0, P c) := by
      cases carry with
      | none => exact ⟨[], [], .startRecord, rfl, by simp, by simp⟩
      | some pr =>
        obtain ⟨fs, fl⟩ := pr
        exact ⟨fs, fl, .inQuoted, rfl, (hcarry fs fl rfl).1, (hcarry fs fl rfl).2⟩
    rw [csvRowsGo_cons, hstart] at hrow
    have hpres := csvLineGo_preserve P hq line f0 fl0 st0 hf0 hfl0 hline
    rcases hres : csvLineGo f0 fl0 st0 line with ⟨fields, field, st⟩
    rw [hres] at hrow hpres
    have hrowfields : ∀ f ∈ fields ++ [field], ∀ c ∈ f, P c := by
      intro f hfm
      rcases List.mem_append.mp hfm with hfm | hfm
      · exact hpres.1 f hfm
      · rw [List.mem_singleton.mp hfm]
        exact hpres.2
    cases st with
    | inQuoted =>
      refine ih (some (fields, field)) ?_ hrest row hrow
      intro fs fl hsome
      have heq := Option.some.inj hsome
      have h1 : fields = fs := congrArg Prod.fst heq
      have h2 : field = fl := congrArg Prod.snd heq
      subst h1 h2
      exact ⟨hpres.1, hpres.2⟩
    | startRecord =>
      rcases List.mem_cons.mp hrow with rfl | hrow
      · simp
      · exact ih none hnone hrest row hrow
    | startField =>
      rcases List.mem_cons.mp hrow with rfl | hrow
      · simpa using hrowfields
      · exact ih none hnone hrest row hrow
    | inField =>
      rcases List.mem_cons.mp hrow with rfl | hrow
      · simpa using hrowfields
      · exact ih none hnone hrest row hrow
    | quoteInQuoted =>
      rcases List.mem_cons.mp hrow with rfl | hrow
      · simpa using hrowfields
      · exact ih none hnone hrest row hrow

theorem pyStrip_subset (l : List Char) : ∀ c ∈ pyStrip l, c ∈ l := by
  intro c hc
  unfold pyStrip at hc
  have h1 := List.mem_reverse.mp hc
  have h2 := (List.dropWhile_sublist pyIsSpace).subset h1
  have h3 := List.mem_reverse.mp h2
  exact (List.dropWhile_sublist pyIsSpace).subset h3

theorem getD_nil_cases (row : List (List Char)) (i : Nat) :
    row.getD i [] ∈ row ∨ row.getD i [] = [] := by
  by_cases h : i < row.length
  · left
    rw [List.getD_eq_getElem row [] h]
    exact List.getElem_mem h
  · right
    exact List.getD_eq_default row [] (Nat.le_of_not_lt h)

theorem process_csv_mem {data : String} {r : LogRecord}
    (hr : r ∈ process_csv data) :
    ∃ row ∈ csvRows (pySplitlines data.data),
      5 ≤ row.length ∧ r = mkLogRecord row := by
  rw [process_csv, processCsvLoop_eq] at hr
  simp only [List.nil_append] at hr
  rcases List.mem_filterMap.mp hr with ⟨row, hrow, hsome⟩
  by_cases h : 5 ≤ row.length
  · rw [if_pos h] at hsome
    exact ⟨row, hrow, h, (Option.some.inj hsome).symm⟩
  · rw [if_neg h] at hsome
    exact absurd hsome (by simp)

theorem process_csv_path_no_newline {data : String} {r : LogRecord}
    (hr : r ∈ process_csv data) : ∀ c ∈ r.path.data, c ≠ '\n' := by
  obtain ⟨row, hrow, -, hrec⟩ := process_csv_mem hr
  have hfields : ∀ f ∈ row, ∀ c ∈ f, c ≠ '\n' :=
    csvRowsGo_preserve (fun c => c ≠ '\n') (by decide)
      (pySplitlines data.data) none (by simp)
      (pySplitlines_no_newline data.data) row hrow
  intro c hc
  have hpath : r.path.data = pyStrip (row.getD 0 []) := by
    rw [hrec]; rfl
  rw [hpath] at hc
  have hmem : c ∈ row.getD 0 [] := pyStrip_subset _ c hc
  rcases getD_nil_cases row 0 with h0 | h0
  · exact hfields _ h0 c hmem
  · rw [h0] at hmem
    exact absurd hmem (List.not_mem_nil c)

/-! ### Helper lemmas: the image pattern against the suffix criterion -/

theorem imageSearch_iff (l : List Char) (hnl : ∀ c ∈ l, c ≠ '\n') :
    imageSearch l = true ↔ ∃ p e, l = p ++ '.' :: e ∧ extOk e = true := by
  induction l with
  | nil =>
    simp only [imageSearch, Bool.false_eq_true, false_iff]
    rintro ⟨p, e, hpe, -⟩
    cases p <;> simp at hpe
  | cons c rest ih =>
    have hc : c ≠ '\n' := hnl c (by simp)
    have hrest : ∀ x ∈ rest, x ≠ '\n' := fun x hx => hnl x (by simp [hx])
    simp only [imageSearch, Bool.or_eq_true, Bool.and_eq_true,
      decide_eq_true_eq]
    constructor
    · rintro (⟨rfl, hext⟩ | ⟨-, hsearch⟩)
      · exact ⟨[], rest, rfl, hext⟩
      · obtain ⟨p, e, hpe, hext⟩ := (ih hrest).mp hsearch
        exact ⟨c :: p, e, by rw [hpe]; rfl, hext⟩
    · rintro ⟨p, e, hpe, hext⟩
      cases p with
      | nil =>
        simp only [List.nil_append, List.cons.injEq] at hpe
        exact Or.inl ⟨hpe.1, hpe.2 ▸ hext⟩
      | cons d p' =>
        simp only [List.cons_append, List.cons.injEq] at hpe
        refine Or.inr ⟨hc, (ih hrest).mpr ⟨p', e, hpe.2, hext⟩⟩

theorem extOk_iff (e : List Char) (hnl : ∀ c ∈ e, c ≠ '\n') :
    extOk e = true ↔ e.map lowerAscii ∈
      [['j', 'p', 'g'], ['g', 'i', 'f'], ['p', 'n', 'g']] := by
  constructor
  · intro h
    simp only [extOk, List.any_eq_true, Bool.or_eq_true, decide_eq_true_eq]
      at h
    obtain ⟨x, hx, hcase⟩ := h
    rcases hcase with hcase | hcase
    · rw [hcase]
      exact hx
    · exfalso
      have hn : '\n' ∈ e.map lowerAscii := by
        rw [hcase]
        exact List.mem_append_right _ (by simp)
      obtain ⟨d, hd, hdn⟩ := List.mem_map.mp hn
      exact hnl d hd (lowerAscii_eq_newline hdn)
  · intro h
    simp only [extOk, List.any_eq_true, Bool.or_eq_true, decide_eq_true_eq]
    exact ⟨e.map lowerAscii, h, Or.inl rfl⟩

theorem endsWith_iff (l : List Char) :
    endsWithImageExt ⟨l⟩ = true ↔
      ∃ p e, l = p ++ '.' :: e ∧ e.map lowerAscii ∈
        [['j', 'p', 'g'], ['g', 'i', 'f'], ['p', 'n', 'g']] := by
  have hdata : (⟨l⟩ : String).data = l := rfl
  constructor
  · intro h
    simp only [endsWithImageExt, hdata, List.any_eq_true,
      List.mem_cons, List.not_mem_nil, or_false] at h
    obtain ⟨x, hx, hsuf⟩ := h
    have hsuffix : x <:+ l.map lowerAscii := List.isSuffixOf_iff_suffix.mp hsuf
    obtain ⟨t, ht⟩ := hsuffix
    have hx4 : ∃ ext, x = '.' :: ext ∧ ext ∈
        [['j', 'p', 'g'], ['g', 'i', 'f'], ['p', 'n', 'g']] := by
      rcases hx with rfl | rfl | rfl
      · exact ⟨_, rfl, by simp⟩
      · exact ⟨_, rfl, by simp⟩
      · exact ⟨_, rfl, by simp⟩
    obtain ⟨ext, rfl, hext⟩ := hx4
    obtain ⟨t', e'', hl, htmap, hemap⟩ := List.map_eq_append_iff.mp ht.symm
    obtain ⟨d, e₂, he'', hd, hemap₂⟩ := List.map_eq_cons_iff.mp hemap
    refine ⟨t', e₂, ?_, ?_⟩
    · rw [hl, he'', lowerAscii_eq_dot hd]
    · rw [hemap₂]
      exact hext
  · rintro ⟨p, e, rfl, hext⟩
    simp only [endsWithImageExt, hdata, List.any_eq_true, List.mem_cons,
      List.not_mem_nil, or_false]
    refine ⟨'.' :: e.map lowerAscii, ?_, ?_⟩
    · simp only [List.mem_cons, List.not_mem_nil, or_false] at hext
      rcases hext with h | h | h <;> rw [h] <;> simp
    · apply List.isSuffixOf_iff_suffix.mpr
      refine ⟨p.map lowerAscii, ?_⟩
      rw [List.map_append, List.map_cons]
      rfl

/-- **C2.** For every record produced by the parser, the image classifier
counts it iff its path, matched case-insensitively against the entire
string, ends in `.jpg`, `.gif`, or `.png`.  (Parsed paths never contain a
newline — `splitlines` removes them and the csv reader inserts none — so
the `.`-cannot-cross-newline and `$`-before-final-newline subtleties of
the Python pattern never fire.) -/
theorem claim2_image_ext (data : String) (r : LogRecord)
    (hr : r ∈ process_csv data) :
    imageMatch r.path = true ↔ endsWithImageExt r.path = true := by
  have hnl : ∀ c ∈ r.path.data, c ≠ '\n' := process_csv_path_no_newline hr
  have h1 : imageMatch r.path = imageSearch r.path.data := rfl
  have h2 : endsWithImageExt r.path = endsWithImageExt ⟨r.path.data⟩ := rfl
  rw [h1, h2, imageSearch_iff _ hnl, endsWith_iff]
  constructor
  · rintro ⟨p, e, hpe, hext⟩
    refine ⟨p, e, hpe, ?_⟩
    rw [← extOk_iff e ?_]
    · exact hext
    · intro c hc
      apply hnl c
      rw [hpe]
      exact List.mem_append_right _ (List.mem_cons_of_mem _ hc)
  · rintro ⟨p, e, hpe, hext⟩
    refine ⟨p, e, hpe, ?_⟩
    rw [extOk_iff e ?_]
    · exact hext
    · intro c hc
      apply hnl c
      rw [hpe]
      exact List.mem_append_right _ (List.mem_cons_of_mem _ hc)

theorem claim2_image_ext_witness :
    (imageMatch "foo.JPG" = true ↔ endsWithImageExt "foo.JPG" = true) ∧
    imageMatch "foo.JPG" = true ∧ endsWithImageExt "foo.JPG" = true ∧
    (imageMatch "foo.jpgx" = true ↔ endsWithImageExt "foo.jpgx" = true) ∧
    imageMatch "foo.jpgx" = false :=
  ⟨claim2_image_ext "foo.JPG,t,u,200,9"
      ⟨"foo.JPG", "t", "u", "200", "9"⟩ (by decide),
   by decide, by decide,
   claim2_image_ext "foo.jpgx,t,u,200,9"
      ⟨"foo.jpgx", "t", "u", "200", "9"⟩ (by decide),
   by decide⟩

/-! ### Helper lemmas: the timestamp parser against the format language -/

theorem daysInMonth_le (m y : Nat) : daysInMonth m y ≤ 31 := by
  unfold daysInMonth
  split_ifs <;> omega

theorem parseTimestampHour_some_iff (s : String) (h : Nat) :
    parseTimestampHour s = some h ↔ specTimestamp s h := by
  constructor
  · intro hp
    unfold parseTimestampHour at hp
    cases hm : numField 1 2 s.data with
    | none => rw [hm, Option.none_bind] at hp; exact absurd hp (by simp)
    | some mr =>
    obtain ⟨m, r1⟩ := mr
    simp only [hm, Option.some_bind] at hp
    have hgm : ¬((decide (m < 1) || decide (12 < m)) = true) := by
      intro hcond
      rw [if_pos hcond] at hp
      exact absurd hp (by simp)
    rw [if_neg hgm] at hp
    cases hl1 : litChar '/' r1 with
    | none => rw [hl1, Option.none_bind] at hp; exact absurd hp (by simp)
    | some r2 =>
    simp only [hl1, Option.some_bind] at hp
    cases hd : numField 1 2 r2 with
    | none => rw [hd, Option.none_bind] at hp; exact absurd hp (by simp)
    | some dr =>
    obtain ⟨d, r3⟩ := dr
    simp only [hd, Option.some_bind] at hp
    have hgd : ¬((decide (d < 1) || decide (31 < d)) = true) := by
      intro hcond
      rw [if_pos hcond] at hp
      exact absurd hp (by simp)
    rw [if_neg hgd] at hp
    cases hl2 : litChar '/' r3 with
    | none => rw [hl2, Option.none_bind] at hp; exact absurd hp (by simp)
    | some r4 =>
    simp only [hl2, Option.some_bind] at hp
    cases hy : numField 4 4 r4 with
    | none => rw [hy, Option.none_bind] at hp; exact absurd hp (by simp)
    | some yr =>
    obtain ⟨y, r5⟩ := yr
    simp only [hy, Option.some_bind] at hp
    have hgy : ¬(y < 1) := by
      intro hcond
      rw [if_pos hcond] at hp
      exact absurd hp (by simp)
    rw [if_neg hgy] at hp
    cases hw : wsRun r5 with
    | none => rw [hw, Option.none_bind] at hp; exact absurd hp (by simp)
    | some r6 =>
    simp only [hw, Option.some_bind] at hp
    cases hh : numField 1 2 r6 with
    | none => rw [hh, Option.none_bind] at hp; exact absurd hp (by simp)
    | some hr =>
    obtain ⟨hov, r7⟩ := hr
    simp only [hh, Option.some_bind] at hp
    have hgh : ¬(23 < hov) := by
      intro hcond
      rw [if_pos hcond] at hp
      exact absurd hp (by simp)
    rw [if_neg hgh] at hp
    cases hl3 : litChar ':' r7 with
    | none => rw [hl3, Option.none_bind] at hp; exact absurd hp (by simp)
    | some r8 =>
    simp only [hl3, Option.some_bind] at hp
    cases hmi : numField 1 2 r8 with
    | none => rw [hmi, Option.none_bind] at hp; exact absurd hp (by simp)
    | some nr =>
    obtain ⟨miv, r9⟩ := nr
    simp only [hmi, Option.some_bind] at hp
    have hgmi : ¬(59 < miv) := by
      intro hcond
      rw [if_pos hcond] at hp
      exact absurd hp (by simp)
    rw [if_neg hgmi] at hp
    cases hl4 : litChar ':' r9 with
    | none => rw [hl4, Option.none_bind] at hp; exact absurd hp (by simp)
    | some r10 =>
    simp only [hl4, Option.some_bind] at hp
    cases hs : numField 1 2 r10 with
    | none => rw [hs, Option.none_bind] at hp; exact absurd hp (by simp)
    | some sr =>
    obtain ⟨sev, r11⟩ := sr
    simp only [hs, Option.some_bind] at hp
    have hgs : ¬(59 < sev) := by
      intro hcond
      rw [if_pos hcond] at hp
      exact absurd hp (by simp)
    rw [if_neg hgs] at hp
    have hgnil : ¬(r11 ≠ []) := by
      intro hcond
      rw [if_pos hcond] at hp
      exact absurd hp (by simp)
    rw [if_neg hgnil] at hp
    have hr11 : r11 = [] := not_not.mp hgnil
    have hgdm : ¬(daysInMonth m y < d) := by
      intro hcond
      rw [if_pos hcond] at hp
      exact absurd hp (by simp)
    rw [if_neg hgdm] at hp
    have hhval : hov = h := Option.some.inj hp
    simp only [Bool.or_eq_true, decide_eq_true_eq, not_or, not_lt]
      at hgm hgd
    obtain ⟨mo, hseq, hmod, hmol1, hmol2, hmov, -⟩ := numField_eq_some_iff.mp hm
    have hr1eq := litChar_eq_some_iff.mp hl1
    obtain ⟨da, hr2eq, hdad, hdal1, hdal2, hdav, -⟩ := numField_eq_some_iff.mp hd
    have hr3eq := litChar_eq_some_iff.mp hl2
    obtain ⟨ye, hr4eq, hyed, hyel1, hyel2, hyev, -⟩ := numField_eq_some_iff.mp hy
    obtain ⟨ws, hr5eq, hwsne, hwssp, -⟩ := wsRun_eq_some_iff.mp hw
    obtain ⟨ho, hr6eq, hhod, hhol1, hhol2, hhov, -⟩ := numField_eq_some_iff.mp hh
    have hr7eq := litChar_eq_some_iff.mp hl3
    obtain ⟨mi, hr8eq, hmid, hmil1, hmil2, hmiv, -⟩ := numField_eq_some_iff.mp hmi
    have hr9eq := litChar_eq_some_iff.mp hl4
    obtain ⟨se, hr10eq, hsed, hsel1, hsel2, hsev, -⟩ := numField_eq_some_iff.mp hs
    refine ⟨mo, da, ye, ws, ho, mi, se, ?_, ?_, ?_, ?_, ?_, ?_, ?_, ?_, ?_⟩
    · rw [hseq, hr1eq, hr2eq, hr3eq, hr4eq, hr5eq, hr6eq, hr7eq, hr8eq,
        hr9eq, hr10eq, hr11]
      simp [List.append_assoc]
    · exact ⟨List.length_pos.mp (by omega), hmol2, hmod, by omega, by omega⟩
    · refine ⟨List.length_pos.mp (by omega), hdal2, hdad, by omega, ?_⟩
      rw [hdav, hmov, hyev]
      exact Nat.le_of_not_lt hgdm
    · exact ⟨by omega, hyed, by omega⟩
    · exact ⟨hwsne, hwssp⟩
    · exact ⟨List.length_pos.mp (by omega), hhol2, hhod, by omega⟩
    · exact ⟨List.length_pos.mp (by omega), hmil2, hmid, by omega⟩
    · exact ⟨List.length_pos.mp (by omega), hsel2, hsed, by omega⟩
    · rw [hhov, hhval]
  · rintro ⟨mo, da, ye, ws, ho, mi, se, heq,
      ⟨hmone, hmol, hmod, hmv1, hmv2⟩,
      ⟨hdane, hdal, hdad, hdv1, hdv2⟩,
      ⟨hyel, hyed, hyv⟩,
      ⟨hwsne, hwssp⟩,
      ⟨hhone, hhol, hhod, hhv⟩,
      ⟨hmine, hmil, hmid, hmv⟩,
      ⟨hsene, hsel, hsed, hsv⟩, hhoh⟩
    obtain ⟨w, ws', rfl⟩ : ∃ w ws', ws = w :: ws' := by
      cases ws with
      | nil => exact absurd rfl hwsne
      | cons w ws' => exact ⟨w, ws', rfl⟩
    obtain ⟨hc, ho', rfl⟩ : ∃ hc ho', ho = hc :: ho' := by
      cases ho with
      | nil => exact absurd rfl hhone
      | cons hc ho' => exact ⟨hc, ho', rfl⟩
    have hslash_nd : ∀ (x : List Char) (c : Char),
        ('/' :: x).head? = some c → isAsciiDigit c = false := by
      intro x c hc
      rw [Option.some.inj hc.symm]
      decide
    have hcolon_nd : ∀ (x : List Char) (c : Char),
        (':' :: x).head? = some c → isAsciiDigit c = false := by
      intro x c hc
      rw [Option.some.inj hc.symm]
      decide
    have hhead_ho : ∀ c : Char,
        ((hc :: ho') ++ ':' :: (mi ++ ':' :: se)).head? = some c →
          pyIsSpace c = false := by
      intro c hcc
      simp only [List.cons_append, List.head?_cons, Option.some.injEq] at hcc
      rw [← hcc]
      exact isAsciiDigit_not_space (hhod hc (by simp))
    have hhead_ws : ∀ c : Char,
        ((w :: ws') ++ ((hc :: ho') ++ ':' :: (mi ++ ':' :: se))).head? =
          some c → isAsciiDigit c = false := by
      intro c hcc
      simp only [List.cons_append, List.head?_cons, Option.some.injEq] at hcc
      rw [← hcc]
      exact pyIsSpace_not_digit (hwssp w (by simp))
    have h_num1 : numField 1 2 s.data =
        some (digitsVal mo, '/' :: (da ++ '/' :: (ye ++ (w :: ws') ++
          ((hc :: ho') ++ ':' :: (mi ++ ':' :: se))))) := by
      apply numField_eq_some_iff.mpr
      refine ⟨mo, ?_, hmod, List.length_pos.mpr hmone, hmol, rfl, hslash_nd _⟩
      rw [heq]
    have h_num2 : numField 1 2 (da ++ '/' :: (ye ++ (w :: ws') ++
        ((hc :: ho') ++ ':' :: (mi ++ ':' :: se)))) =
        some (digitsVal da, '/' :: (ye ++ (w :: ws') ++
          ((hc :: ho') ++ ':' :: (mi ++ ':' :: se)))) := by
      apply numField_eq_some_iff.mpr
      exact ⟨da, rfl, hdad, List.length_pos.mpr hdane, hdal, rfl, hslash_nd _⟩
    have h_num3 : numField 4 4 (ye ++ (w :: ws') ++
        ((hc :: ho') ++ ':' :: (mi ++ ':' :: se))) =
        some (digitsVal ye, (w :: ws') ++
          ((hc :: ho') ++ ':' :: (mi ++ ':' :: se))) := by
      apply numField_eq_some_iff.mpr
      refine ⟨ye, ?_, hyed, by omega, by omega, rfl, hhead_ws⟩
      simp [List.append_assoc]
    have h_ws : wsRun ((w :: ws') ++ ((hc :: ho') ++ ':' :: (mi ++ ':' :: se))) =
        some ((hc :: ho') ++ ':' :: (mi ++ ':' :: se)) := by
      apply wsRun_eq_some_iff.mpr
      exact ⟨w :: ws', rfl, by simp, hwssp, hhead_ho⟩
    have h_num4 : numField 1 2 ((hc :: ho') ++ ':' :: (mi ++ ':' :: se)) =
        some (digitsVal (hc :: ho'), ':' :: (mi ++ ':' :: se)) := by
      apply numField_eq_some_iff.mpr
      exact ⟨hc :: ho', by simp, hhod, by simp, hhol, rfl, hcolon_nd _⟩
    have h_num5 : numField 1 2 (mi ++ ':' :: se) =
        some (digitsVal mi, ':' :: se) := by
      apply numField_eq_some_iff.mpr
      exact ⟨mi, rfl, hmid, List.length_pos.mpr hmine, hmil, rfl, hcolon_nd _⟩
    have h_num6 : numField 1 2 se = some (digitsVal se, []) := by
      apply numField_eq_some_iff.mpr
      refine ⟨se, by simp, hsed, List.length_pos.mpr hsene, hsel, rfl, ?_⟩
      intro c hcc
      simp at hcc
    have hg1 : ¬((decide (digitsVal mo < 1) || decide (12 < digitsVal mo)) =
        true) := by
      simp only [Bool.or_eq_true, decide_eq_true_eq, not_or, not_lt]
      exact ⟨hmv1, hmv2⟩
    have hg2 : ¬((decide (digitsVal da < 1) || decide (31 < digitsVal da)) =
        true) := by
      simp only [Bool.or_eq_true, decide_eq_true_eq, not_or, not_lt]
      have := daysInMonth_le (digitsVal mo) (digitsVal ye)
      omega
    have hg3 : ¬(digitsVal ye < 1) := by omega
    have hg4 : ¬(23 < digitsVal (hc :: ho')) := by omega
    have hg5 : ¬(59 < digitsVal mi) := by omega
    have hg6 : ¬(59 < digitsVal se) := by omega
    have hg7 : ¬(([] : List Char) ≠ []) := by simp
    have hg8 : ¬(daysInMonth (digitsVal mo) (digitsVal ye) < digitsVal da) :=
      Nat.not_lt.mpr hdv2
    unfold parseTimestampHour
    simp only [h_num1, Option.some_bind]
    rw [if_neg hg1, litChar_eq_some_iff.mpr rfl, Option.some_bind]
    simp only [h_num2, Option.some_bind]
    rw [if_neg hg2, litChar_eq_some_iff.mpr rfl, Option.some_bind]
    simp only [h_num3, Option.some_bind]
    rw [if_neg hg3]
    simp only [h_ws, Option.some_bind, h_num4, Option.some_bind]
    rw [if_neg hg4, litChar_eq_some_iff.mpr rfl, Option.some_bind]
    simp only [h_num5, Option.some_bind]
    rw [if_neg hg5, litChar_eq_some_iff.mpr rfl, Option.some_bind]
    simp only [h_num6, Option.some_bind]
    rw [if_neg hg6, if_neg hg7, if_neg hg8, hhoh]

/-- **C8 (counterexample).** The claim says a one-digit month does not match
the format and the record is skipped; in fact `%m` accepts a one-digit
month, the timestamp `1/02/2020 10:15:00` parses, and its record is
counted in the hour tally. -/
theorem claim8_counterexample :
    parseTimestampHour "1/02/2020 10:15:00" = some 10 ∧
    analyze_hits_by_hour [⟨"p", "1/02/2020 10:15:00", "ua", "200", "7"⟩] =
      [(10, 1)] := by
  constructor <;> decide

/-- **C8 (amended).** The hourly aggregator parses the timestamp against
the format: one- or two-digit month (1–12) `/` one- or two-digit day
(validated against the calendar, leap years included) `/` four-digit year
(at least 0001), one or more whitespace characters, then
`hour:minute:second` with one- or two-digit components (hour 0–23, minute
0–59, second 0–59), with nothing before or after; a record whose timestamp
does not match is skipped from the hour tally. -/
theorem claim8_timestamp_format :
    (∀ (s : String) (h : Nat),
      parseTimestampHour s = some h ↔ specTimestamp s h) ∧
    (∀ (pre post : List LogRecord) (r : LogRecord),
      parseTimestampHour r.datetime = none →
      analyze_hits_by_hour (pre ++ r :: post) =
        analyze_hits_by_hour (pre ++ post)) := by
  constructor
  · exact parseTimestampHour_some_iff
  · intro pre post r hbad
    unfold analyze_hits_by_hour
    rw [hourCounts_eq, hourCounts_eq, List.filterMap_append,
      List.filterMap_append, List.filterMap_cons, hbad]

theorem claim8_timestamp_format_witness :
    specTimestamp "1/2/2020 3:4:5" 3 ∧
    analyze_hits_by_hour [⟨"p", "notadate", "u", "200", "7"⟩] =
      analyze_hits_by_hour [] :=
  ⟨(claim8_timestamp_format.1 "1/2/2020 3:4:5" 3).mp (by decide),
   claim8_timestamp_format.2 [] [] ⟨"p", "notadate", "u", "200", "7"⟩
     (by decide)⟩

theorem claim4_hour_sort_witness :
    ∃ r ∈ [⟨"a", "01/01/2020 10:15:00", "u", "200", "9"⟩,
           ⟨"b", "01/01/2020 10:16:00", "u", "200", "9"⟩,
           ⟨"c", "01/01/2020 11:00:00", "u", "200", "9"⟩,
           ⟨"d", "01/01/2020 10:17:00", "u", "200", "9"⟩],
      parseTimestampHour (LogRecord.datetime r) = some 10 :=
  ((claim4_hour_sort
      [⟨"a", "01/01/2020 10:15:00", "u", "200", "9"⟩,
       ⟨"b", "01/01/2020 10:16:00", "u", "200", "9"⟩,
       ⟨"c", "01/01/2020 11:00:00", "u", "200", "9"⟩,
       ⟨"d", "01/01/2020 10:17:00", "u", "200", "9"⟩]).2.2.2.2 10).mp
    ⟨(10, 3), by decide, rfl⟩

end Assignment3
